import Mathlib

/-!
Verification of the shadow-workspace synchronization subsystem
(`sway-lsp/src/core/sync.rs`).

The development shallowly embeds the subsystem: filesystem paths are lists of
components (with an explicit absolute flag where relative paths can occur),
the filesystem itself is a finite tree of named entries, the TOML manifest is
modelled as a structured document that keeps a dependencies table plus an
opaque remainder, and the collaborator functions that live outside the
repository sources (URL construction, the manifest schema parser, the source
engine, canonicalization) are abstract parameters gathered in an environment
record.  All definitions are executable so theorems can be checked on
concrete inputs.
-/

namespace SwaySync

/-! ## String helpers (kernel-computable stand-ins for `str` methods) -/

/-- Models `str::ends_with`. -/
def strEndsWith (s suffix : String) : Bool :=
  suffix.data.isSuffixOf s.data

/-- Does `pat` occur contiguously inside `s`? -/
def listInfix (pat : List Char) : List Char → Bool
  | [] => pat.isEmpty
  | c :: rest => pat.isPrefixOf (c :: rest) || listInfix pat rest

/-- Models `str::contains` (substring test), via char lists. -/
def strContains (s pat : String) : Bool :=
  listInfix pat.data s.data

/-! ## Paths

A `FsPath` models a Rust `PathBuf`: a sequence of non-empty components plus
a flag recording whether the path is absolute (starts with the root
separator).  Directory paths that are known to be absolute are passed around
as bare component lists (`List String`). -/

structure FsPath where
  absolute : Bool
  components : List String
  deriving Repr, DecidableEq

/-- Split a character list at every slash character. -/
def splitSlash : List Char → List Char → List String
  | [], cur => [String.mk cur.reverse]
  | '/' :: rest, cur => String.mk cur.reverse :: splitSlash rest []
  | c :: rest, cur => splitSlash rest (c :: cur)

/-- Models `PathBuf::from(string)` at the component level: a leading slash
makes the path absolute; empty components (repeated or trailing slashes)
are dropped, matching how `Path::components` iterates. -/
def FsPath.parse (s : String) : FsPath :=
  match s.data with
  | '/' :: rest => ⟨true, (splitSlash rest []).filter (fun c => c ≠ "")⟩
  | cs => ⟨false, (splitSlash cs []).filter (fun c => c ≠ "")⟩

/-- Render an absolute path (given by its components) back to a string, as
`Path::to_string_lossy` does for a canonicalized (hence absolute) path. -/
def renderAbs (cs : List String) : String :=
  "/" ++ String.intercalate "/" cs

/-- Models `Path::join`: joining with an absolute path replaces the base. -/
def FsPath.join (p q : FsPath) : FsPath :=
  if q.absolute then q else ⟨p.absolute, p.components ++ q.components⟩

/-- Models `manifest_dir.join(rel_path)` where the base directory is known
absolute: the result is again an absolute path given by its components. -/
def joinPath (dir : List String) (p : FsPath) : List String :=
  if p.absolute then p.components else dir ++ p.components

/-- Models `Path::strip_prefix`: succeeds when `base` is a component prefix
of `p` (with matching absoluteness) and yields the relative remainder. -/
def stripPrefixPath (p base : FsPath) : Option FsPath :=
  if p.absolute = base.absolute then
    if base.components.isPrefixOf p.components then
      some ⟨false, p.components.drop base.components.length⟩
    else none
  else none

/-- Is the absolute path `p` nested (weakly) under the absolute dir `root`? -/
def isUnderDir (root p : List String) : Bool :=
  root.isPrefixOf p

/-! ## Error types (from `sway-lsp/src/error.rs`; payloads elided) -/

inductive DocumentError where
  | ManifestFileNotFound
  | IOError
  | UnableToWriteFile
  deriving Repr, DecidableEq

inductive DirectoryError where
  | ManifestDirNotFound
  | TempDirNotFound
  | CanonicalizeFailed
  | TempDirFailed
  | CantExtractProjectName
  | StripPrefixError
  | CopyContentsFailed
  | SpanFromPathFailed
  deriving Repr, DecidableEq

inductive LanguageServerError where
  | document (e : DocumentError)
  | directory (e : DirectoryError)
  deriving Repr, DecidableEq

/-! ## Filesystem trees

The on-disk state is a finite tree of named entries.  Names within one
directory are unique on a real filesystem; the predicate `wfEntries` states
that.  `FsEntries` is a bespoke list so that all tree functions are
structurally recursive and kernel-computable. -/

mutual
inductive FsEntry where
  | file (content : String)
  | dir (entries : FsEntries)
  deriving Repr, DecidableEq
inductive FsEntries where
  | nil
  | cons (name : String) (entry : FsEntry) (rest : FsEntries)
  deriving Repr, DecidableEq
end

/-- First entry with the given name, as directory listing lookup. -/
def lookupEntry : FsEntries → String → Option FsEntry
  | .nil, _ => none
  | .cons n e rest, name => if n = name then some e else lookupEntry rest name

/-- Does the listing contain an entry with the given name? -/
def hasName : FsEntries → String → Bool
  | .nil, _ => false
  | .cons n _ rest, name => n = name || hasName rest name

/-- Replace the first entry with the given name (or append a new one),
as overwriting a file or refreshing a directory does on disk. -/
def replaceOrAdd : FsEntries → String → FsEntry → FsEntries
  | .nil, name, e => .cons name e .nil
  | .cons n e0 rest, name, e =>
    if n = name then .cons n e rest else .cons n e0 (replaceOrAdd rest name e)

mutual
/-- Real directories never list the same name twice; recursively so. -/
def wfEntry : FsEntry → Bool
  | .file _ => true
  | .dir sub => wfEntries sub
def wfEntries : FsEntries → Bool
  | .nil => true
  | .cons n e rest => !hasName rest n && wfEntry e && wfEntries rest
end

/-- Read the file content at an absolute path (components) in the tree.
Models a successful `std::fs::read_to_string`. -/
def readFile (entries : FsEntries) : List String → Option String
  | [] => none
  | [name] =>
    match lookupEntry entries name with
    | some (.file c) => some c
    | _ => none
  | name :: rest =>
    match lookupEntry entries name with
    | some (.dir sub) => readFile sub rest
    | _ => none

/-- The directory listing at an absolute path in the tree. -/
def getDirAt (entries : FsEntries) : List String → Option FsEntries
  | [] => some entries
  | name :: rest =>
    match lookupEntry entries name with
    | some (.dir sub) => getDirAt sub rest
    | _ => none

/-- Models `std::fs::write`: fails (`none`) when the parent directory does
not exist or a directory stands where the file must go. -/
def writeFile (entries : FsEntries) : List String → String → Option FsEntries
  | [], _ => none
  | [name], c =>
    match lookupEntry entries name with
    | some (.dir _) => none
    | _ => some (replaceOrAdd entries name (.file c))
  | name :: rest, c =>
    match lookupEntry entries name with
    | some (.dir sub) =>
      (writeFile sub rest c).map (fun s => replaceOrAdd entries name (.dir s))
    | _ => none

/-! ## Selective copy (`copy_dir_contents`)

Constants from `sway-utils` (the spec fixes their values: source extension
`sw`, manifest `Forc.toml`, lockfile `Forc.lock`). -/

def SWAY_EXTENSION : String := "sw"

def MANIFEST_FILE_NAME : String := "Forc.toml"

def LOCK_FILE_NAME : String := "Forc.lock"

/-- The allow-list test applied to a file name inside `copy_dir_contents`:
`file_name.ends_with(".sw") || file_name == MANIFEST_FILE_NAME ||
file_name == LOCK_FILE_NAME`. -/
def isRelevantFile (name : String) : Bool :=
  strEndsWith name ("." ++ SWAY_EXTENSION) ||
    name = MANIFEST_FILE_NAME || name = LOCK_FILE_NAME

/-- The pure content of `copy_dir_contents`: which entries of the source
listing get copied (in listing order) and whether anything was copied
(the `has_relevant_files` result).  Directory entries are recursed into and
kept only when the recursive call copied something; file entries are kept
exactly when the allow-list matches their name. -/
def copy_dir_contents : FsEntries → FsEntries × Bool
  | .nil => (.nil, false)
  | .cons name (.dir sub) rest =>
    let s := copy_dir_contents sub
    let r := copy_dir_contents rest
    if s.2 then (.cons name (.dir s.1) r.1, true) else r
  | .cons name (.file c) rest =>
    let r := copy_dir_contents rest
    if isRelevantFile name then (.cons name (.file c) r.1, true) else r

/-- Is there a file matching the allow-list anywhere in the subtree? -/
def hasQualifyingFile : FsEntries → Bool
  | .nil => false
  | .cons name (.file _) rest => isRelevantFile name || hasQualifyingFile rest
  | .cons _ (.dir sub) rest => hasQualifyingFile sub || hasQualifyingFile rest

/-- Merge a copied listing into an existing listing on disk: copied files
overwrite files of the same name, copied directories merge recursively with
existing ones, everything else in the old listing survives.  Fails (as the
filesystem calls of `copy_dir_contents` do) when a file must be written
where a directory stands or a directory created where a file stands. -/
def mergeInto : FsEntries → FsEntries → Option FsEntries
  | old, .nil => some old
  | old, .cons n (.file c) rest =>
    match lookupEntry old n with
    | some (.dir _) => none
    | _ => mergeInto (replaceOrAdd old n (.file c)) rest
  | old, .cons n (.dir sub) rest =>
    match lookupEntry old n with
    | some (.file _) => none
    | some (.dir sub0) =>
      match mergeInto sub0 sub with
      | none => none
      | some m => mergeInto (replaceOrAdd old n (.dir m)) rest
    | none => mergeInto (replaceOrAdd old n (.dir sub)) rest

/-- Place a copied listing at an absolute target path inside the world tree,
creating the missing directories along the way (`fs::create_dir_all`) and
merging at the destination.  Fails when a file blocks the directory chain. -/
def placeAt (world : FsEntries) : List String → FsEntries → Option FsEntries
  | [], copied => mergeInto world copied
  | name :: rest, copied =>
    match lookupEntry world name with
    | some (.file _) => none
    | some (.dir sub) =>
      (placeAt sub rest copied).map (fun s => replaceOrAdd world name (.dir s))
    | none =>
      (placeAt .nil rest copied).map (fun s => replaceOrAdd world name (.dir s))

/-- The effect of `copy_dir_contents(src_dir, target_dir)` on the whole
filesystem: read the source listing, compute the copied entries, and when
anything qualifies place them under the target path.  When nothing
qualifies no target directory is created and the world is untouched.
`none` models a propagated `std::io::Error`. -/
def copy_dir_contents_fs (world : FsEntries) (src target : List String) :
    Option (FsEntries × Bool) :=
  match getDirAt world src with
  | none => none
  | some srcEntries =>
    let r := copy_dir_contents srcEntries
    if r.2 then (placeAt world target r.1).map (fun w => (w, true))
    else some (world, false)

/-! ## Manifest model

The editable TOML document (`toml_edit::DocumentMut`) is modelled as its
dependencies table (when present as a table) plus an opaque remainder that
the rewrite pass never touches.  The schema side (`forc_pkg`) is modelled by
the dependency enumeration that `process_dependencies` consumes. -/

/-- One value of the editable dependencies table: either an inline table of
key/value pairs (the only shape `process_dependencies` mutates) or any
other TOML item kept verbatim. -/
inductive DocDep where
  | inlineTable (entries : List (String × String))
  | nonInline (raw : String)
  deriving Repr, DecidableEq

/-- The editable manifest document. -/
structure TomlDoc where
  dependencies : Option (List (String × DocDep))
  rest : String
  deriving Repr, DecidableEq

/-- `forc_pkg::manifest::DependencyDetails` restricted to the one field the
rewrite pass reads. -/
structure DependencyDetails where
  path : Option String
  deriving Repr, DecidableEq

/-- `forc_pkg::manifest::Dependency`. -/
inductive Dependency where
  | simple (version : String)
  | detailed (details : DependencyDetails)
  deriving Repr, DecidableEq

/-- `forc_pkg::manifest::ManifestFile`: a package manifest with its optional
dependency map, or a workspace manifest. -/
inductive ManifestFile where
  | package (dependencies : Option (List (String × Dependency)))
  | workspace
  deriving Repr, DecidableEq

/-- `toml_edit` inline-table insert: replaces the value of an existing key
in place, otherwise appends the pair at the end. -/
def insertKV : List (String × String) → String → String → List (String × String)
  | [], k, v => [(k, v)]
  | (k0, v0) :: rest, k, v =>
    if k0 = k then (k, v) :: rest else (k0, v0) :: insertKV rest k v

/-- The table mutation done for one dependency: `deps_table.get_mut(name)`
followed, when the item is an inline table, by inserting the new `path`
value.  A missing entry or a non-inline item leaves the table unchanged. -/
def setDepPath : List (String × DocDep) → String → String → List (String × DocDep)
  | [], _, _ => []
  | (n, d) :: rest, name, v =>
    if n = name then
      match d with
      | .inlineTable kv => (n, .inlineTable (insertKV kv "path" v)) :: rest
      | .nonInline raw => (n, .nonInline raw) :: rest
    else (n, d) :: setDepPath rest name v

/-- `process_dependencies`: walk the schema dependency list; for every
detailed dependency that carries a `path` (the code never tests whether it
is relative), resolve it against the manifest directory, canonicalize
(failing the whole pass with `CanonicalizeFailed` when canonicalization
fails), and write the resulting absolute path string into the matching
inline-table entry of the editable table.  `canon` abstracts
`Path::canonicalize` (which depends on the on-disk state). -/
def process_dependencies (canon : List String → Option (List String))
    (manifest_dir : List String) :
    List (String × Dependency) → List (String × DocDep) →
    Except LanguageServerError (List (String × DocDep))
  | [], table => .ok table
  | (name, dep) :: rest, table =>
    match dep with
    | .detailed details =>
      match details.path with
      | some rel_path =>
        match canon (joinPath manifest_dir (FsPath.parse rel_path)) with
        | none => .error (.directory .CanonicalizeFailed)
        | some abs_path =>
          process_dependencies canon manifest_dir rest
            (setDepPath table name (renderAbs abs_path))
      | none => process_dependencies canon manifest_dir rest table
    | .simple _ => process_dependencies canon manifest_dir rest table

/-! ## URLs and spans -/

/-- A file URL.  `get_url_from_path` and `get_path_from_url` live in
`sway-lsp/src/utils/document.rs`, which is not among the analyzed sources;
modelled from the spec, which treats a URL as a location identifier whose
path component carries the root, they form an exact inverse pair. -/
structure Url where
  path : FsPath
  deriving Repr, DecidableEq

/-- Render the path of a URL the way `Url::as_ref` exposes it. -/
def FsPath.render (p : FsPath) : String :=
  (if p.absolute then "/" else "") ++ String.intercalate "/" p.components

/-- The textual form of the URL (`uri.as_ref()`). -/
def Url.asString (u : Url) : String :=
  "file://" ++ u.path.render

/-- Modelled from the spec: URL construction for a filesystem path
(`get_url_from_path`, from the missing `utils/document.rs`). -/
def get_url_from_path (p : FsPath) : Except DirectoryError Url :=
  .ok ⟨p⟩

/-- Modelled from the spec: the path of a file URL (`get_path_from_url`,
from the missing `utils/document.rs`). -/
def get_path_from_url (u : Url) : Except DirectoryError FsPath :=
  .ok u.path

/-- The fixed token embedded in every shadow-tree directory name.  Models
`SyncWorkspace::LSP_TEMP_PREFIX`. -/
def lspTempDirToken : String := "SWAY_LSP_TEMP_DIR"

/-- `is_path_in_temp_workspace`: a structural check on the URL text. -/
def is_path_in_temp_workspace (uri : Url) : Bool :=
  strContains uri.asString lspTempDirToken

/-- `convert_url(uri, from, to)`: strip the `to` prefix from the path of the
URL and re-prefix with `from`. -/
def convert_url (uri : Url) (fromDir toDir : FsPath) : Except DirectoryError Url :=
  match stripPrefixPath uri.path toDir with
  | none => .error .StripPrefixError
  | some rel => get_url_from_path (fromDir.join rel)

/-- A source span: source text, byte offsets and the root-scoped source
identifier (`sway-types`; `stop` models the `end()` offset). -/
structure Span where
  src : String
  start : Nat
  stop : Nat
  source_id : Option Nat
  deriving Repr, DecidableEq

/-- Modelled from the spec: the `sway-types` span constructor (that crate is
not among the analyzed sources).  It rebuilds a span from a source text,
byte offsets and an optional source identifier; the spec demands the same
byte offsets be kept, the constructor only validates them against the
text. -/
def Span.new (src : String) (start stop : Nat) (source_id : Option Nat) :
    Option Span :=
  if start ≤ stop ∧ stop ≤ src.length then some ⟨src, start, stop, source_id⟩
  else none

/-! ## The collaborator environment

Everything the subsystem calls but that lives outside the analyzed sources:
the two manifest parsers and the document serializer (`toml_edit`,
`forc_pkg`), canonicalization (`std::fs`), manifest discovery
(`PackageManifestFile::from_dir`), temporary-directory allocation
(`tempfile`), and the source engine (`sway-types`). -/

structure SyncEnv where
  parseDoc : String → Option TomlDoc
  parseManifest : String → Option ManifestFile
  renderDoc : TomlDoc → String
  canon : List String → Option (List String)
  findPackageManifest : List String → Option (List String)
  mkTempDir : Option (List String)
  get_url_from_span : Span → Except DirectoryError Url
  get_source_id : FsPath → Nat

/-! ## Manifest rewrite pass -/

/-- The load-and-rewrite phase of `edit_manifest_dependency_paths`: read the
real manifest, parse it as an editable document and through the schema,
rewrite the dependency paths of a package manifest, and serialize the
resulting document.  Nothing is written yet. -/
def rewriteManifestContent (env : SyncEnv) (world : FsEntries)
    (manifest_dir manifest_path : List String) :
    Except LanguageServerError String :=
  match readFile world manifest_path with
  | none => .error (.document .IOError)
  | some manifest_content =>
  match env.parseDoc manifest_content with
  | none => .error (.document .IOError)
  | some doc =>
  match env.parseManifest manifest_content with
  | none => .error (.document .IOError)
  | some manifest =>
  let docResult : Except LanguageServerError TomlDoc :=
    match manifest with
    | .package (some deps) =>
      match doc.dependencies with
      | some deps_table =>
        (process_dependencies env.canon manifest_dir deps deps_table).map
          (fun t => { doc with dependencies := some t })
      | none => .ok doc
    | _ => .ok doc
  docResult.map env.renderDoc

/-- `edit_manifest_dependency_paths`: run the load-and-rewrite phase and
only on success write the serialized document to the shadow manifest path.
The pair returned is the outcome together with the world tree after the
pass. -/
def edit_manifest_dependency_paths (env : SyncEnv) (world : FsEntries)
    (manifest_dir manifest_path temp_manifest_path : List String) :
    Except LanguageServerError Unit × FsEntries :=
  match rewriteManifestContent env world manifest_dir manifest_path with
  | .error e => (.error e, world)
  | .ok newText =>
    match writeFile world temp_manifest_path newText with
    | none => (.error (.document .UnableToWriteFile), world)
    | some world1 => (.ok (), world1)

/-! ## The orchestrator -/

/-- `SyncWorkspace.directories`: the registry mapping the two roles
(`Directory::Manifest`, `Directory::Temp`) to absolute paths. -/
structure SyncWorkspace where
  manifest : Option (List String)
  temp : Option (List String)
  deriving Repr, DecidableEq

/-- `manifest_dir()`: the registered manifest root or `ManifestDirNotFound`. -/
def SyncWorkspace.manifest_dir (s : SyncWorkspace) :
    Except DirectoryError (List String) :=
  match s.manifest with
  | some d => .ok d
  | none => .error .ManifestDirNotFound

/-- `temp_dir()`: the registered shadow root or `TempDirNotFound`. -/
def SyncWorkspace.temp_dir (s : SyncWorkspace) :
    Except DirectoryError (List String) :=
  match s.temp with
  | some d => .ok d
  | none => .error .TempDirNotFound

/-- `manifest_path()`: the manifest file inside the manifest root. -/
def SyncWorkspace.manifest_path (s : SyncWorkspace) : Option (List String) :=
  (s.manifest_dir).toOption.map (fun d => d ++ [MANIFEST_FILE_NAME])

/-- `temp_manifest_path()`: the manifest file inside the shadow root. -/
def SyncWorkspace.temp_manifest_path (s : SyncWorkspace) : Option (List String) :=
  (s.temp_dir).toOption.map (fun d => d ++ [MANIFEST_FILE_NAME])

/-- `clone_manifest_dir_to_temp`: copy the manifest root into the shadow
root; any copy failure maps to `CopyContentsFailed`. -/
def SyncWorkspace.clone_manifest_dir_to_temp (s : SyncWorkspace)
    (world : FsEntries) : Except DirectoryError FsEntries :=
  match s.manifest_dir with
  | .error e => .error e
  | .ok m =>
  match s.temp_dir with
  | .error e => .error e
  | .ok t =>
  match copy_dir_contents_fs world m t with
  | none => .error .CopyContentsFailed
  | some (world1, _) => .ok world1

/-- `resync()`: clone the workspace into the shadow tree, then, when both
roots and the manifest paths resolve, run the manifest rewrite pass. -/
def SyncWorkspace.resync (env : SyncEnv) (s : SyncWorkspace)
    (world : FsEntries) : Except LanguageServerError Unit × FsEntries :=
  match s.clone_manifest_dir_to_temp world with
  | .error e => (.error (.directory e), world)
  | .ok world1 =>
    match s.manifest_dir, s.manifest_path, s.temp_manifest_path with
    | .ok manifest_dir, some manifest_path, some temp_manifest_path =>
      edit_manifest_dependency_paths env world1
        manifest_dir manifest_path temp_manifest_path
    | _, _, _ => (.ok (), world1)

/-- `Path::parent` on a component list for an absolute path. -/
def parentPath : List String → Option (List String)
  | [] => none
  | cs => some cs.dropLast

/-- `create_temp_dir_from_workspace`: locate the package manifest, derive
the project name from the directory name, allocate a canonicalized
temporary directory, and only then register both roots.  Every failure
returns before either insertion. -/
def SyncWorkspace.create_temp_dir_from_workspace (env : SyncEnv)
    (s : SyncWorkspace) (manifest_dir : List String) :
    Except LanguageServerError Unit × SyncWorkspace :=
  match env.findPackageManifest manifest_dir with
  | none => (.error (.document .ManifestFileNotFound), s)
  | some manifestFilePath =>
  match parentPath manifestFilePath with
  | none => (.error (.directory .ManifestDirNotFound), s)
  | some mdir =>
  match mdir.getLast? with
  | none => (.error (.directory .CantExtractProjectName), s)
  | some project_name =>
  match env.mkTempDir with
  | none => (.error (.directory .TempDirFailed), s)
  | some tdir =>
  match env.canon tdir with
  | none => (.error (.directory .CanonicalizeFailed), s)
  | some ctdir =>
    (.ok (), { manifest := some mdir, temp := some (ctdir ++ [project_name]) })

/-- `workspace_to_temp_url`: `convert_url(uri, temp_dir, manifest_dir)`. -/
def SyncWorkspace.workspace_to_temp_url (s : SyncWorkspace) (uri : Url) :
    Except DirectoryError Url := do
  let t ← s.temp_dir
  let m ← s.manifest_dir
  convert_url uri ⟨true, t⟩ ⟨true, m⟩

/-- `temp_to_workspace_url`: `convert_url(uri, manifest_dir, temp_dir)`. -/
def SyncWorkspace.temp_to_workspace_url (s : SyncWorkspace) (uri : Url) :
    Except DirectoryError Url := do
  let m ← s.manifest_dir
  let t ← s.temp_dir
  convert_url uri ⟨true, m⟩ ⟨true, t⟩

/-- `temp_to_workspace_span`: when the URL resolved from the span lies in
the shadow tree, convert the URL, look the converted path up in the source
engine, and rebuild the span with the same offsets and the new identifier;
otherwise return the span as-is. -/
def SyncWorkspace.temp_to_workspace_span (env : SyncEnv) (s : SyncWorkspace)
    (span : Span) : Except DirectoryError Span := do
  let url ← env.get_url_from_span span
  if is_path_in_temp_workspace url then
    let m ← s.manifest_dir
    let t ← s.temp_dir
    let converted_url ← convert_url url ⟨true, m⟩ ⟨true, t⟩
    let converted_path ← get_path_from_url converted_url
    let source_id := env.get_source_id converted_path
    match Span.new span.src span.start span.stop (some source_id) with
    | some sp => pure sp
    | none => .error .SpanFromPathFailed
  else
    pure span

/-! ## Derived notions used by the statements -/

/-- Does a schema dependency carry a `path` field? -/
def depHasPath : Dependency → Bool
  | .detailed details => details.path.isSome
  | .simple _ => false

/-- First dependency value with the given name in an editable table. -/
def lookupDep : List (String × DocDep) → String → Option DocDep
  | [], _ => none
  | (n, d) :: rest, name => if n = name then some d else lookupDep rest name

/-! ## Concrete instances used by the witnesses -/

/-- A collaborator environment where every external call fails or is
trivial; used to exercise the error paths. -/
def envFail : SyncEnv where
  parseDoc := fun _ => none
  parseManifest := fun _ => none
  renderDoc := fun _ => ""
  canon := fun _ => none
  findPackageManifest := fun _ => none
  mkTempDir := none
  get_url_from_span := fun _ => .error .StripPrefixError
  get_source_id := fun _ => 0

/-- A canonicalizer for a filesystem where every involved path exists and
contains no symlinks: it resolves the current-directory components. -/
def canonDots (cs : List String) : Option (List String) :=
  some (cs.filter (fun c => c ≠ "."))

/-- Environment for the successful-run witnesses: both manifest parses
succeed (the schema parse sees a workspace manifest, so the rewrite pass
keeps the document intact), serialization is constant, and spans resolve to
a fixed shadow-tree URL. -/
def envRun : SyncEnv where
  parseDoc := fun _ => some ⟨none, "doc"⟩
  parseManifest := fun _ => some .workspace
  renderDoc := fun _ => "rendered"
  canon := canonDots
  findPackageManifest := fun _ => none
  mkTempDir := none
  get_url_from_span := fun _ =>
    .ok ⟨⟨true, ["tmp", "SWAY_LSP_TEMP_DIR_x1", "proj", "src", "main.sw"]⟩⟩
  get_source_id := fun _ => 7

/-- A registry with both roots registered, the shadow root carrying the
recognizable temp token. -/
def wsBoth : SyncWorkspace :=
  ⟨some ["home", "proj"], some ["tmp", "SWAY_LSP_TEMP_DIR_x1", "proj"]⟩

/-- A small world: a real project tree plus an empty shadow root. -/
def worldRun : FsEntries :=
  .cons "home"
    (.dir (.cons "proj"
      (.dir (.cons "Forc.toml" (.file "manifest-text")
        (.cons "src" (.dir (.cons "main.sw" (.file "fn main") .nil))
          (.cons "README.md" (.file "readme") .nil))))
      .nil))
    (.cons "tmp"
      (.dir (.cons "SWAY_LSP_TEMP_DIR_x1"
        (.dir (.cons "proj" (.dir .nil) .nil)) .nil))
      .nil)

/-- A concrete schema dependency list: one path dependency, one registry
dependency. -/
def depsW : List (String × Dependency) :=
  [("fuels", .detailed ⟨some "../dep"⟩), ("std", .simple "1.0")]

/-- The matching editable dependencies table. -/
def tblW : List (String × DocDep) :=
  [("fuels", .inlineTable [("path", "../dep"), ("version", "1")]),
   ("std", .nonInline "1.0")]

/-- The table after the rewrite pass under `canonDots`. -/
def tblW1 : List (String × DocDep) :=
  [("fuels", .inlineTable [("path", "/home/proj/../dep"), ("version", "1")]),
   ("std", .nonInline "1.0")]

/-- A concrete source tree mixing relevant files, irrelevant files, and a
subdirectory holding only irrelevant files. -/
def tW : FsEntries :=
  .cons "Forc.toml" (.file "m")
    (.cons "src"
      (.dir (.cons "main.sw" (.file "f") (.cons "notes.txt" (.file "n") .nil)))
      (.cons "README.md" (.file "r")
        (.cons "target" (.dir (.cons "junk.txt" (.file "j") .nil)) .nil)))

/-- Environment whose span resolution yields a URL outside any shadow tree
(an external dependency file). -/
def envOut : SyncEnv :=
  { envFail with
      get_url_from_span := fun _ =>
        .ok ⟨⟨true, ["registry", "dep-0.1", "src", "lib.sw"]⟩⟩ }

/-! ## Theorems -/

/-- C5: a manifest rewrite pass is all-or-nothing.  Whenever
`edit_manifest_dependency_paths` returns an error (read failure, parse
failure, or canonicalization failure of a dependency path), the filesystem
is unchanged: in particular the shadow manifest at `temp_manifest_path` is
not written at all. -/
theorem edit_manifest_error_writes_nothing (env : SyncEnv) (world : FsEntries)
    (manifest_dir manifest_path temp_manifest_path : List String)
    (e : LanguageServerError) (world1 : FsEntries)
    (h : edit_manifest_dependency_paths env world manifest_dir manifest_path
      temp_manifest_path = (.error e, world1)) :
    world1 = world := by
  unfold edit_manifest_dependency_paths at h
  repeat' split at h
  all_goals simp_all

/-- Witness for C5: with an unreadable manifest the pass fails and the
world is returned untouched. -/
theorem edit_manifest_error_writes_nothing_witness :
    (edit_manifest_dependency_paths envFail .nil ["home"]
      ["home", "Forc.toml"] ["tmp", "Forc.toml"]).2 = FsEntries.nil :=
  edit_manifest_error_writes_nothing envFail .nil ["home"]
    ["home", "Forc.toml"] ["tmp", "Forc.toml"] (.document .IOError) _ rfl

/-- C6: whenever `create_temp_dir_from_workspace` returns an error (manifest
not found, project name not extractable, temp-dir creation failure, or
canonicalization failure) the registry is exactly what it was before the
call — started empty it stays empty, and no partial registration of only one
role can result, since both roles are inserted together after the last
fallible step. -/
theorem create_temp_dir_error_no_registration (env : SyncEnv)
    (s : SyncWorkspace) (dir : List String) (e : LanguageServerError)
    (s1 : SyncWorkspace)
    (h : s.create_temp_dir_from_workspace env dir = (.error e, s1)) :
    s1 = s := by
  unfold SyncWorkspace.create_temp_dir_from_workspace at h
  repeat' split at h
  all_goals simp_all

/-- Witness for C6: manifest discovery fails on the empty registry and the
registry stays empty. -/
theorem create_temp_dir_error_no_registration_witness :
    (SyncWorkspace.create_temp_dir_from_workspace envFail ⟨none, none⟩
      ["home", "proj"]).2 = (⟨none, none⟩ : SyncWorkspace) :=
  create_temp_dir_error_no_registration envFail ⟨none, none⟩ ["home", "proj"]
    (.document .ManifestFileNotFound) _ rfl

/-- C7: with a manifest root registered but no temp root, `resync` returns
the `TempDirNotFound` error and the filesystem is untouched (no copy and no
manifest write happens). -/
theorem resync_no_temp_dir (env : SyncEnv) (s : SyncWorkspace)
    (world : FsEntries) (m : List String)
    (h1 : s.manifest = some m) (h2 : s.temp = none) :
    s.resync env world = (.error (.directory .TempDirNotFound), world) := by
  simp [SyncWorkspace.resync, SyncWorkspace.clone_manifest_dir_to_temp,
    SyncWorkspace.manifest_dir, SyncWorkspace.temp_dir, h1, h2]

/-- Witness for C7 at a concrete registry and world. -/
theorem resync_no_temp_dir_witness :
    SyncWorkspace.resync envFail ⟨some ["home", "proj"], none⟩ worldRun
      = (.error (.directory .TempDirNotFound), worldRun) :=
  resync_no_temp_dir envFail ⟨some ["home", "proj"], none⟩ worldRun
    ["home", "proj"] rfl rfl

/-- C10: for a span whose resolved URL does not contain the temp-prefix
token (it points outside the shadow workspace, e.g. into an external
dependency), `temp_to_workspace_span` returns `Ok` with the input span
unchanged — same file, same source identifier, same offsets. -/
theorem span_outside_temp_passthrough (env : SyncEnv) (s : SyncWorkspace)
    (span : Span) (url : Url)
    (h1 : env.get_url_from_span span = .ok url)
    (h2 : is_path_in_temp_workspace url = false) :
    s.temp_to_workspace_span env span = .ok span := by
  simp [SyncWorkspace.temp_to_workspace_span, h1, h2, bind, Except.bind,
    pure, Except.pure]

/-- Witness for C10: a dependency URL without the temp token passes
through. -/
theorem span_outside_temp_passthrough_witness :
    SyncWorkspace.temp_to_workspace_span envOut wsBoth ⟨"src", 0, 2, some 3⟩
      = .ok ⟨"src", 0, 2, some 3⟩ :=
  span_outside_temp_passthrough envOut wsBoth ⟨"src", 0, 2, some 3⟩
    ⟨⟨true, ["registry", "dep-0.1", "src", "lib.sw"]⟩⟩ rfl (by decide)

/-- Stripping a prefix and joining it back restores the path, and the
joined path strips back to the same remainder: the two directions of
`convert_url`. -/
theorem convert_url_inverse (uri : Url) (X Y : FsPath) (rel : FsPath)
    (h : stripPrefixPath uri.path X = some rel) :
    convert_url uri Y X = .ok ⟨Y.join rel⟩ ∧
      convert_url ⟨Y.join rel⟩ X Y = .ok uri := by
  obtain ⟨⟨a, c⟩⟩ := uri
  have hx : a = X.absolute ∧
      X.components.isPrefixOf c = true ∧
      rel = ⟨false, c.drop X.components.length⟩ := by
    unfold stripPrefixPath at h
    repeat' split at h
    all_goals simp_all
  obtain ⟨hab, hpre, hrel⟩ := hx
  obtain ⟨t, ht⟩ := List.isPrefixOf_iff_prefix.mp hpre
  subst ht
  rw [List.drop_left] at hrel
  subst hrel
  subst hab
  have hjoin : Y.join ⟨false, t⟩ = ⟨Y.absolute, Y.components ++ t⟩ := by
    simp [FsPath.join]
  have hstrip : stripPrefixPath ⟨Y.absolute, Y.components ++ t⟩ Y
      = some ⟨false, t⟩ := by
    simp [stripPrefixPath, List.isPrefixOf_iff_prefix, List.prefix_append,
      List.drop_left]
  constructor
  · simp [convert_url, h, get_url_from_path]
  · simp [convert_url, hjoin, hstrip, get_url_from_path, FsPath.join]

/-- C2: round-trip URL translation is the identity.  For a URL under the
manifest root, translating it into the temp tree and back yields the URL
again, and for a URL under the temp root, translating it into the workspace
and back yields the URL again. -/
theorem url_roundtrip_identity (s : SyncWorkspace) (A B : List String)
    (uri : Url) (h1 : s.manifest = some A) (h2 : s.temp = some B) :
    (∀ rel, stripPrefixPath uri.path ⟨true, A⟩ = some rel →
      ∃ v, s.workspace_to_temp_url uri = .ok v ∧
        s.temp_to_workspace_url v = .ok uri) ∧
    (∀ rel, stripPrefixPath uri.path ⟨true, B⟩ = some rel →
      ∃ v, s.temp_to_workspace_url uri = .ok v ∧
        s.workspace_to_temp_url v = .ok uri) := by
  have hm : s.manifest_dir = .ok A := by
    simp [SyncWorkspace.manifest_dir, h1]
  have ht : s.temp_dir = .ok B := by
    simp [SyncWorkspace.temp_dir, h2]
  constructor
  · intro rel hstrip
    obtain ⟨hfwd, hback⟩ := convert_url_inverse uri ⟨true, A⟩ ⟨true, B⟩ rel hstrip
    refine ⟨⟨FsPath.join ⟨true, B⟩ rel⟩, ?_, ?_⟩
    · simp [SyncWorkspace.workspace_to_temp_url, hm, ht, bind, Except.bind, hfwd]
    · simp [SyncWorkspace.temp_to_workspace_url, hm, ht, bind, Except.bind, hback]
  · intro rel hstrip
    obtain ⟨hfwd, hback⟩ := convert_url_inverse uri ⟨true, B⟩ ⟨true, A⟩ rel hstrip
    refine ⟨⟨FsPath.join ⟨true, A⟩ rel⟩, ?_, ?_⟩
    · simp [SyncWorkspace.temp_to_workspace_url, hm, ht, bind, Except.bind, hfwd]
    · simp [SyncWorkspace.workspace_to_temp_url, hm, ht, bind, Except.bind, hback]

/-- Witness for C2: a concrete source file under the manifest root
round-trips through the temp tree, and a concrete file under the temp root
round-trips through the workspace. -/
theorem url_roundtrip_identity_witness :
    (∃ v, SyncWorkspace.workspace_to_temp_url wsBoth
        ⟨⟨true, ["home", "proj", "src", "main.sw"]⟩⟩ = .ok v ∧
      SyncWorkspace.temp_to_workspace_url wsBoth v
        = .ok ⟨⟨true, ["home", "proj", "src", "main.sw"]⟩⟩) ∧
    (∃ v, SyncWorkspace.temp_to_workspace_url wsBoth
        ⟨⟨true, ["tmp", "SWAY_LSP_TEMP_DIR_x1", "proj", "src", "main.sw"]⟩⟩
          = .ok v ∧
      SyncWorkspace.workspace_to_temp_url wsBoth v
        = .ok ⟨⟨true, ["tmp", "SWAY_LSP_TEMP_DIR_x1", "proj", "src", "main.sw"]⟩⟩) :=
  ⟨(url_roundtrip_identity wsBoth ["home", "proj"]
      ["tmp", "SWAY_LSP_TEMP_DIR_x1", "proj"]
      ⟨⟨true, ["home", "proj", "src", "main.sw"]⟩⟩ rfl rfl).1
      ⟨false, ["src", "main.sw"]⟩ (by decide),
   (url_roundtrip_identity wsBoth ["home", "proj"]
      ["tmp", "SWAY_LSP_TEMP_DIR_x1", "proj"]
      ⟨⟨true, ["tmp", "SWAY_LSP_TEMP_DIR_x1", "proj", "src", "main.sw"]⟩⟩ rfl rfl).2
      ⟨false, ["src", "main.sw"]⟩ (by decide)⟩

/-- C8: span translation never changes which bytes are referenced.  If
`temp_to_workspace_span` returns a span, that span has the same start
offset, the same end offset and the same source text as the input span
(only the source identifier — which root the file is expressed under — may
change). -/
theorem span_translation_keeps_offsets (env : SyncEnv) (s : SyncWorkspace)
    (span sp : Span)
    (h : s.temp_to_workspace_span env span = .ok sp) :
    sp.start = span.start ∧ sp.stop = span.stop ∧ sp.src = span.src := by
  unfold SyncWorkspace.temp_to_workspace_span at h
  simp only [bind, Except.bind, pure, Except.pure, Span.new] at h
  repeat' split at h
  all_goals try exact Except.noConfusion h
  all_goals injection h with h1
  all_goals rw [← h1]
  all_goals first
    | exact ⟨rfl, rfl, rfl⟩
    | (rename_i heq
       split at heq
       · injection heq with h2
         rw [← h2]
         exact ⟨rfl, rfl, rfl⟩
       · exact Option.noConfusion heq)

/-- Witness for C8: a concrete span inside the shadow tree is rebuilt with
a new identifier but identical offsets. -/
theorem span_translation_keeps_offsets_witness :
    SyncWorkspace.temp_to_workspace_span envRun wsBoth ⟨"fn main", 1, 3, some 0⟩
      = .ok ⟨"fn main", 1, 3, some 7⟩ ∧
    (1 = 1 ∧ 3 = 3 ∧ "fn main" = "fn main") :=
  ⟨rfl,
   span_translation_keeps_offsets envRun wsBoth ⟨"fn main", 1, 3, some 0⟩
     ⟨"fn main", 1, 3, some 7⟩ rfl⟩

/-- Entry lookup is unchanged by `setDepPath` at any other name. -/
theorem lookupDep_setDepPath_ne (table : List (String × DocDep))
    (name m v : String) (h : m ≠ name) :
    lookupDep (setDepPath table name v) m = lookupDep table m := by
  induction table with
  | nil => simp [setDepPath, lookupDep]
  | cons hd rest ih =>
    obtain ⟨n, d⟩ := hd
    by_cases hn : n = name
    · subst hn
      have hnm : n ≠ m := fun hh => h hh.symm
      cases d <;> simp [setDepPath, lookupDep, hnm]
    · simp [setDepPath, lookupDep, hn, ih]

/-- What `setDepPath` does to the looked-up entry: an inline table gains the
new `path` value, everything else is unchanged. -/
theorem lookupDep_setDepPath_eq (table : List (String × DocDep))
    (name v : String) :
    lookupDep (setDepPath table name v) name =
      (match lookupDep table name with
       | some (.inlineTable kv) => some (.inlineTable (insertKV kv "path" v))
       | x => x) := by
  induction table with
  | nil => simp [setDepPath, lookupDep]
  | cons hd rest ih =>
    obtain ⟨n, d⟩ := hd
    by_cases hn : n = name
    · subst hn
      cases d <;> simp [setDepPath, lookupDep]
    · simp [setDepPath, lookupDep, hn, ih]

/-- Names that never appear with a `path`-carrying dependency in the schema
list keep their table entry through `process_dependencies`. -/
theorem process_preserves_unpathed (canon : List String → Option (List String))
    (dir : List String) (name : String) :
    ∀ (deps : List (String × Dependency)) (table table1 : List (String × DocDep)),
      process_dependencies canon dir deps table = .ok table1 →
      (∀ dep, (name, dep) ∈ deps → depHasPath dep = false) →
      lookupDep table1 name = lookupDep table name
  | [], table, table1, h, _ => by
      simp only [process_dependencies] at h
      cases h
      rfl
  | (n, dep) :: rest, table, table1, h, hnp => by
      cases dep with
      | simple v =>
        simp only [process_dependencies] at h
        exact process_preserves_unpathed canon dir name rest table table1 h
          (fun d hd => hnp d (List.mem_cons_of_mem _ hd))
      | detailed details =>
        cases hp : details.path with
        | none =>
          simp only [process_dependencies, hp] at h
          exact process_preserves_unpathed canon dir name rest table table1 h
            (fun d hd => hnp d (List.mem_cons_of_mem _ hd))
        | some p =>
          have hne : n ≠ name := by
            intro hh
            subst hh
            have := hnp (.detailed details) (List.mem_cons_self _ _)
            simp [depHasPath, hp] at this
          simp only [process_dependencies, hp] at h
          cases hc : canon (joinPath dir (FsPath.parse p)) with
          | none =>
            rw [hc] at h
            exact Except.noConfusion h
          | some cp =>
            rw [hc] at h
            have hrec := process_preserves_unpathed canon dir name rest
              (setDepPath table n (renderAbs cp)) table1 h
              (fun d hd => hnp d (List.mem_cons_of_mem _ hd))
            rw [hrec, lookupDep_setDepPath_ne _ _ _ _ (fun hh => hne hh.symm)]

/-- A name that appears (uniquely) with a `path`-carrying dependency gets
its table entry rewritten by `process_dependencies`: canonicalization of the
resolved path must have succeeded, and an inline-table entry gains the
canonical absolute path while any other entry shape is left unchanged. -/
theorem process_rewrites_pathed (canon : List String → Option (List String))
    (dir : List String) (name p : String) :
    ∀ (deps : List (String × Dependency)) (table table1 : List (String × DocDep)),
      (deps.map Prod.fst).Nodup →
      (name, Dependency.detailed ⟨some p⟩) ∈ deps →
      process_dependencies canon dir deps table = .ok table1 →
      ∃ cp, canon (joinPath dir (FsPath.parse p)) = some cp ∧
        lookupDep table1 name =
          (match lookupDep table name with
           | some (.inlineTable kv) =>
               some (.inlineTable (insertKV kv "path" (renderAbs cp)))
           | x => x)
  | [], _, _, _, hmem, _ => absurd hmem (List.not_mem_nil _)
  | (n, dep) :: rest, table, table1, hnd, hmem, h => by
      rw [List.map_cons, List.nodup_cons] at hnd
      rcases List.mem_cons.mp hmem with heq | hrest
      · rw [Prod.mk.injEq] at heq
        obtain ⟨rfl, rfl⟩ := heq
        simp only [process_dependencies] at h
        cases hc : canon (joinPath dir (FsPath.parse p)) with
        | none =>
          rw [hc] at h
          exact Except.noConfusion h
        | some cp =>
          rw [hc] at h
          refine ⟨cp, rfl, ?_⟩
          have hnotin : ∀ d, (name, d) ∈ rest → depHasPath d = false := by
            intro d hd
            exact absurd (List.mem_map.mpr ⟨(name, d), hd, rfl⟩) hnd.1
          have hrec := process_preserves_unpathed canon dir name rest
            (setDepPath table name (renderAbs cp)) table1 h hnotin
          rw [hrec, lookupDep_setDepPath_eq]
      · have hne : n ≠ name := by
          intro hh
          subst hh
          exact hnd.1
            (List.mem_map.mpr ⟨(n, Dependency.detailed ⟨some p⟩), hrest, rfl⟩)
        cases dep with
        | simple v =>
          simp only [process_dependencies] at h
          exact process_rewrites_pathed canon dir name p rest table table1
            hnd.2 hrest h
        | detailed details =>
          cases hp : details.path with
          | none =>
            simp only [process_dependencies, hp] at h
            exact process_rewrites_pathed canon dir name p rest table table1
              hnd.2 hrest h
          | some q =>
            simp only [process_dependencies, hp] at h
            cases hc : canon (joinPath dir (FsPath.parse q)) with
            | none =>
              rw [hc] at h
              exact Except.noConfusion h
            | some cq =>
              rw [hc] at h
              obtain ⟨cp, hcp, hlook⟩ := process_rewrites_pathed canon dir
                name p rest (setDepPath table n (renderAbs cq)) table1
                hnd.2 hrest h
              refine ⟨cp, hcp, ?_⟩
              rw [hlook, lookupDep_setDepPath_ne _ _ _ _ (fun hh => hne hh.symm)]

/-- C1 (amended): in a successful rewrite pass, dependency entries whose
schema dependency carries no `path` field keep their editable-table entry
byte-identical; every dependency carrying a `path` — relative or absolute,
since the code never tests relativity — has the resolved path successfully
canonicalized, and its entry, when it is an inline table, rewritten to that
canonical absolute path (entries of any other shape are left unchanged). -/
theorem process_dependencies_rewrite
    (canon : List String → Option (List String)) (dir : List String)
    (deps : List (String × Dependency)) (table table1 : List (String × DocDep))
    (hnd : (deps.map Prod.fst).Nodup)
    (hok : process_dependencies canon dir deps table = .ok table1)
    (name : String) :
    ((∀ dep, (name, dep) ∈ deps → depHasPath dep = false) →
        lookupDep table1 name = lookupDep table name) ∧
    (∀ p, (name, Dependency.detailed ⟨some p⟩) ∈ deps →
        ∃ cp, canon (joinPath dir (FsPath.parse p)) = some cp ∧
          lookupDep table1 name =
            (match lookupDep table name with
             | some (.inlineTable kv) =>
                 some (.inlineTable (insertKV kv "path" (renderAbs cp)))
             | x => x)) :=
  ⟨fun hnp => process_preserves_unpathed canon dir name deps table table1 hok hnp,
   fun p hmem => process_rewrites_pathed canon dir name p deps table table1
     hnd hmem hok⟩

/-- Counterexample for C1 as stated: a dependency whose `path` is already
absolute does not appear byte-identical — the code resolves and
canonicalizes it too (here canonicalization, modelled on a filesystem where
the path exists, normalizes away the current-directory component) and
rewrites the entry. -/
theorem process_rewrites_absolute_path :
    (FsPath.parse "/a/./b").absolute = true ∧
    process_dependencies canonDots ["home", "user"]
        [("foo", .detailed ⟨some "/a/./b"⟩)]
        [("foo", .inlineTable [("path", "/a/./b")])]
      = .ok [("foo", .inlineTable [("path", "/a/b")])] ∧
    (DocDep.inlineTable [("path", "/a/b")]
      ≠ DocDep.inlineTable [("path", "/a/./b")]) := by
  exact ⟨by decide, rfl, by decide⟩

/-- Witness for C1 (amended): on a concrete manifest the pathless `std`
entry is untouched and the `fuels` entry gains the canonicalized resolved
path. -/
theorem process_dependencies_rewrite_witness :
    (lookupDep tblW1 "std" = lookupDep tblW "std") ∧
    (∃ cp, canonDots (joinPath ["home", "proj"] (FsPath.parse "../dep"))
        = some cp ∧
      lookupDep tblW1 "fuels" =
        (match lookupDep tblW "fuels" with
         | some (.inlineTable kv) =>
             some (.inlineTable (insertKV kv "path" (renderAbs cp)))
         | x => x)) :=
  ⟨(process_dependencies_rewrite canonDots ["home", "proj"] depsW tblW tblW1
      (by decide) rfl "std").1
      (by
        intro dep hdep
        rcases List.mem_cons.mp hdep with h | h2
        · have h5 : ("std" : String) = "fuels" := congrArg Prod.fst h
          exact absurd h5 (by decide)
        · rcases List.mem_cons.mp h2 with h | h3
          · cases congrArg Prod.snd h
            rfl
          · exact absurd h3 (List.not_mem_nil _)),
   (process_dependencies_rewrite canonDots ["home", "proj"] depsW tblW tblW1
      (by decide) rfl "fuels").2 "../dep" (by decide)⟩

/-- A name the directory does not list has no lookup result. -/
theorem hasName_false_lookup : ∀ (t : FsEntries) (n : String),
    hasName t n = false → lookupEntry t n = none
  | .nil, _, _ => rfl
  | .cons m e rest, n, h => by
      simp only [hasName, Bool.or_eq_false_iff, decide_eq_false_iff_not] at h
      simp [lookupEntry, h.1, hasName_false_lookup rest n h.2]

/-- Copying introduces no new names: a name absent from the source listing
is absent from the copied listing. -/
theorem lookup_copy_none : ∀ (t : FsEntries) (n : String),
    lookupEntry t n = none → lookupEntry (copy_dir_contents t).1 n = none
  | .nil, _, _ => rfl
  | .cons m (.file c) rest, n, h => by
      simp only [lookupEntry] at h
      split at h
      · exact Option.noConfusion h
      · rename_i hm
        by_cases hr : isRelevantFile m <;>
          simp [copy_dir_contents, lookupEntry, hr, hm,
            lookup_copy_none rest n h]
  | .cons m (.dir sub) rest, n, h => by
      simp only [lookupEntry] at h
      split at h
      · exact Option.noConfusion h
      · rename_i hm
        by_cases hf : (copy_dir_contents sub).2 <;>
          simp [copy_dir_contents, lookupEntry, hf, hm,
            lookup_copy_none rest n h]

/-- The copied flag is exactly "the source subtree holds a qualifying
file". -/
theorem copy_dir_contents_flag : ∀ t : FsEntries,
    (copy_dir_contents t).2 = hasQualifyingFile t
  | .nil => rfl
  | .cons m (.file c) rest => by
      simp only [copy_dir_contents, hasQualifyingFile]
      cases hr : isRelevantFile m <;>
        simp [hr, copy_dir_contents_flag rest]
  | .cons m (.dir sub) rest => by
      simp only [copy_dir_contents, hasQualifyingFile]
      cases hf : (copy_dir_contents sub).2 <;>
        simp [← copy_dir_contents_flag sub, ← copy_dir_contents_flag rest, hf]

/-- Lookup in a copied listing, for a well-formed source: files survive
exactly when relevant, directories exactly when their subtree copied
something. -/
theorem lookup_copy : ∀ (t : FsEntries) (n : String), wfEntries t = true →
    lookupEntry (copy_dir_contents t).1 n =
      (match lookupEntry t n with
       | some (.file c) => if isRelevantFile n then some (.file c) else none
       | some (.dir sub) =>
           if (copy_dir_contents sub).2 then
             some (.dir (copy_dir_contents sub).1)
           else none
       | none => none)
  | .nil, n, _ => rfl
  | .cons m (.file c) rest, n, hw => by
      simp only [wfEntries, wfEntry, Bool.and_eq_true,
        Bool.not_eq_true'] at hw
      obtain ⟨⟨hnm, -⟩, hwr⟩ := hw
      by_cases hmn : m = n
      · subst hmn
        have hnone : lookupEntry rest m = none := hasName_false_lookup rest m hnm
        by_cases hr : isRelevantFile m <;>
          simp [copy_dir_contents, lookupEntry, hr, lookup_copy_none rest m hnone]
      · by_cases hr : isRelevantFile m <;>
          simp [copy_dir_contents, lookupEntry, hr, hmn,
            lookup_copy rest n hwr]
  | .cons m (.dir sub) rest, n, hw => by
      simp only [wfEntries, wfEntry, Bool.and_eq_true,
        Bool.not_eq_true'] at hw
      obtain ⟨⟨hnm, -⟩, hwr⟩ := hw
      by_cases hmn : m = n
      · subst hmn
        have hnone : lookupEntry rest m = none := hasName_false_lookup rest m hnm
        by_cases hf : (copy_dir_contents sub).2 <;>
          simp [copy_dir_contents, lookupEntry, hf, lookup_copy_none rest m hnone]
      · by_cases hf : (copy_dir_contents sub).2 <;>
          simp [copy_dir_contents, lookupEntry, hf, hmn,
            lookup_copy rest n hwr]

/-- A relevant file listed at top level makes the subtree qualify. -/
theorem lookup_file_hasQualifying : ∀ (t : FsEntries) (n : String) (c : String),
    lookupEntry t n = some (.file c) → isRelevantFile n = true →
    hasQualifyingFile t = true
  | .nil, _, _, h, _ => Option.noConfusion h
  | .cons m (.file c0) rest, n, c, h, hr => by
      simp only [lookupEntry] at h
      split at h
      · rename_i hm
        subst hm
        simp [hasQualifyingFile, hr]
      · simp [hasQualifyingFile,
          lookup_file_hasQualifying rest n c h hr]
  | .cons m (.dir sub) rest, n, c, h, hr => by
      simp only [lookupEntry] at h
      split at h
      · simp at h
      · simp [hasQualifyingFile,
          lookup_file_hasQualifying rest n c h hr]

/-- Subtrees of a non-qualifying tree do not qualify. -/
theorem lookup_dir_hasQualifying : ∀ (t : FsEntries) (m : String)
    (sub : FsEntries), lookupEntry t m = some (.dir sub) →
    hasQualifyingFile t = false → hasQualifyingFile sub = false
  | .nil, _, _, h, _ => Option.noConfusion h
  | .cons n (.file c) rest, m, sub, h, hq => by
      simp only [lookupEntry] at h
      simp only [hasQualifyingFile, Bool.or_eq_false_iff] at hq
      split at h
      · exact FsEntry.noConfusion (Option.some.inj h)
      · exact lookup_dir_hasQualifying rest m sub h hq.2
  | .cons n (.dir sub0) rest, m, sub, h, hq => by
      simp only [lookupEntry] at h
      simp only [hasQualifyingFile, Bool.or_eq_false_iff] at hq
      split at h
      · cases FsEntry.dir.inj (Option.some.inj h)
        exact hq.1
      · exact lookup_dir_hasQualifying rest m sub h hq.2

/-- A tree with no qualifying file yields no read at a relevant file name. -/
theorem noQualifying_read_none : ∀ (p : List String) (t : FsEntries)
    (n : String), p.getLast? = some n → isRelevantFile n = true →
    hasQualifyingFile t = false → readFile t p = none
  | [], _, _, h, _, _ => Option.noConfusion h
  | [m], t, n, h, hr, hq => by
      have hmn : m = n := Option.some.inj h
      subst hmn
      simp only [readFile]
      cases hl : lookupEntry t m with
      | none => rfl
      | some e =>
        cases e with
        | file c =>
          rw [lookup_file_hasQualifying t m c hl hr] at hq
          exact Bool.noConfusion hq
        | dir sub => rfl
  | m :: r1 :: r2, t, n, h, hr, hq => by
      simp only [readFile]
      cases hl : lookupEntry t m with
      | none => rfl
      | some e =>
        cases e with
        | file c => rfl
        | dir sub =>
          exact noQualifying_read_none (r1 :: r2) sub n h hr
            (lookup_dir_hasQualifying t m sub hl hq)

/-- Well-formedness descends into listed subdirectories. -/
theorem wf_lookup_dir : ∀ (t : FsEntries) (m : String) (sub : FsEntries),
    wfEntries t = true → lookupEntry t m = some (.dir sub) →
    wfEntries sub = true
  | .nil, _, _, _, h => Option.noConfusion h
  | .cons n e rest, m, sub, hw, h => by
      simp only [wfEntries, Bool.and_eq_true] at hw
      obtain ⟨⟨-, hwe⟩, hwr⟩ := hw
      simp only [lookupEntry] at h
      split at h
      · cases Option.some.inj h
        exact hwe
      · exact wf_lookup_dir rest m sub hwr h

/-- C3: the selective copy copies exactly the allow-listed files.  For a
well-formed source tree, a file is readable in the copied tree exactly when
it is readable in the source tree and its name (the last path component)
matches the allow-list — ends with `.sw`, or equals the manifest filename,
or equals the lockfile filename — and its content is then identical. -/
theorem copy_dir_contents_exact : ∀ (p : List String) (t : FsEntries),
    wfEntries t = true →
    readFile (copy_dir_contents t).1 p =
      (match p.getLast? with
       | some n => if isRelevantFile n then readFile t p else none
       | none => none)
  | [], t, _ => rfl
  | [m], t, hw => by
      simp only [readFile, List.getLast?_singleton]
      rw [lookup_copy t m hw]
      cases hl : lookupEntry t m with
      | none => simp
      | some e =>
        cases e with
        | file c =>
          by_cases hr : isRelevantFile m <;> simp [hr]
        | dir sub =>
          by_cases hf : (copy_dir_contents sub).2 <;>
            by_cases hr : isRelevantFile m <;> simp [hf, hr]
  | m :: r1 :: r2, t, hw => by
      simp only [readFile, List.getLast?_cons_cons]
      rw [lookup_copy t m hw]
      cases hl : lookupEntry t m with
      | none =>
        cases hg : (r1 :: r2).getLast? with
        | none => simp
        | some n => by_cases hr : isRelevantFile n <;> simp [hr]
      | some e =>
        cases e with
        | file c =>
          by_cases hr : isRelevantFile m <;>
            cases hg : (r1 :: r2).getLast? with
          | none => simp [hr]
          | some n =>
            by_cases hrn : isRelevantFile n <;> simp [hr, hrn]
        | dir sub =>
          by_cases hf : (copy_dir_contents sub).2
          · simp only [hf, if_pos]
            exact copy_dir_contents_exact (r1 :: r2) sub
              (wf_lookup_dir t m sub hw hl)
          · simp only [hf]
            cases hg : (r1 :: r2).getLast? with
            | none => simp
            | some n =>
              by_cases hrn : isRelevantFile n
              · have hqf : hasQualifyingFile sub = false := by
                  rw [← copy_dir_contents_flag sub]
                  exact Bool.of_not_eq_true hf
                simp [hrn,
                  noQualifying_read_none (r1 :: r2) sub n hg hrn hqf]
              · simp [hrn]

/-- Witness for C3 at a concrete tree: a nested source file is copied with
identical content, and the equation instantiates at its path. -/
theorem copy_dir_contents_exact_witness :
    readFile (copy_dir_contents tW).1 ["src", "main.sw"] =
      (match ["src", "main.sw"].getLast? with
       | some n => if isRelevantFile n then readFile tW ["src", "main.sw"]
                   else none
       | none => none) :=
  copy_dir_contents_exact ["src", "main.sw"] tW (by decide)

/-- C4: the copy never materializes a target directory whose mirrored
source subtree holds no qualifying file.  Every directory present in the
copied tree (at any non-root path) corresponds to a source directory at the
same path whose subtree contains at least one allow-listed file. -/
theorem copy_dir_contents_prunes : ∀ (p : List String) (t : FsEntries)
    (out : FsEntries), wfEntries t = true → p ≠ [] →
    getDirAt (copy_dir_contents t).1 p = some out →
    ∃ src, getDirAt t p = some src ∧ hasQualifyingFile src = true
  | [], _, _, _, hne, _ => absurd rfl hne
  | m :: rest, t, out, hw, _, h => by
      simp only [getDirAt] at h
      rw [lookup_copy t m hw] at h
      cases hl : lookupEntry t m with
      | none =>
        rw [hl] at h
        exact Option.noConfusion h
      | some e =>
        cases e with
        | file c =>
          rw [hl] at h
          by_cases hr : isRelevantFile m <;> simp [hr] at h
        | dir sub =>
          rw [hl] at h
          by_cases hf : (copy_dir_contents sub).2
          · simp only [hf, if_pos] at h
            cases rest with
            | nil =>
              refine ⟨sub, ?_, ?_⟩
              · simp [getDirAt, hl]
              · rw [← copy_dir_contents_flag sub]
                exact hf
            | cons r1 r2 =>
              obtain ⟨src, hs, hq⟩ := copy_dir_contents_prunes (r1 :: r2)
                sub out (wf_lookup_dir t m sub hw hl) (by simp) h
              refine ⟨src, ?_, hq⟩
              rw [← hs]
              simp [getDirAt, hl]
          · simp [hf] at h

/-- Witness for C4: the copied `src` directory mirrors a source directory
holding the qualifying `main.sw`. -/
theorem copy_dir_contents_prunes_witness :
    ∃ src, getDirAt tW ["src"] = some src ∧ hasQualifyingFile src = true :=
  copy_dir_contents_prunes ["src"] tW
    (.cons "main.sw" (.file "f") .nil) (by decide) (by decide) rfl

/-- Replacing one named entry does not disturb lookups at other names. -/
theorem lookup_replaceOrAdd_ne : ∀ (t : FsEntries) (name m : String)
    (e : FsEntry), m ≠ name →
    lookupEntry (replaceOrAdd t name e) m = lookupEntry t m
  | .nil, name, m, e, h => by
      have h2 : ¬ name = m := fun hh => h hh.symm
      simp [replaceOrAdd, lookupEntry, h2]
  | .cons n e0 rest, name, m, e, h => by
      by_cases hn : n = name
      · subst hn
        have h2 : ¬ n = m := fun hh => h hh.symm
        simp [replaceOrAdd, lookupEntry, h2]
      · by_cases hm : n = m
        · subst hm
          simp [replaceOrAdd, lookupEntry, hn]
        · simp [replaceOrAdd, lookupEntry, hn, hm,
            lookup_replaceOrAdd_ne rest name m e h]

/-- Replacing a named entry makes that entry the lookup result. -/
theorem lookup_replaceOrAdd_eq : ∀ (t : FsEntries) (name : String)
    (e : FsEntry), lookupEntry (replaceOrAdd t name e) name = some e
  | .nil, name, e => by simp [replaceOrAdd, lookupEntry]
  | .cons n e0 rest, name, e => by
      by_cases hn : n = name <;>
        simp [replaceOrAdd, lookupEntry, hn, lookup_replaceOrAdd_eq rest name e]

/-- Writing one file changes no read at any other path. -/
theorem writeFile_frame : ∀ (p : List String) (w : FsEntries) (c : String)
    (w1 : FsEntries) (q : List String), writeFile w p c = some w1 → q ≠ p →
    readFile w1 q = readFile w q
  | [], w, c, w1, q, h, _ => Option.noConfusion h
  | [name], w, c, w1, q, h, hq => by
      cases hl : lookupEntry w name with
      | some e =>
        cases e with
        | dir sub => simp [writeFile, hl] at h
        | file c0 =>
          simp only [writeFile, hl, Option.some.injEq] at h
          subst h
          cases q with
          | nil => rfl
          | cons m qrest =>
            by_cases hm : m = name
            · subst hm
              cases qrest with
              | nil => exact absurd rfl hq
              | cons q1 q2 =>
                simp [readFile, lookup_replaceOrAdd_eq, hl]
            · cases qrest <;>
                simp [readFile, lookup_replaceOrAdd_ne w name m _ hm]
      | none =>
        simp only [writeFile, hl, Option.some.injEq] at h
        subst h
        cases q with
        | nil => rfl
        | cons m qrest =>
          by_cases hm : m = name
          · subst hm
            cases qrest with
            | nil => exact absurd rfl hq
            | cons q1 q2 =>
              simp [readFile, lookup_replaceOrAdd_eq, hl]
          · cases qrest <;>
              simp [readFile, lookup_replaceOrAdd_ne w name m _ hm]
  | name :: p1 :: p2, w, c, w1, q, h, hq => by
      cases hl : lookupEntry w name with
      | none => simp [writeFile, hl] at h
      | some e =>
        cases e with
        | file c0 => simp [writeFile, hl] at h
        | dir sub =>
          cases hs : writeFile sub (p1 :: p2) c with
          | none => simp [writeFile, hl, hs] at h
          | some s =>
            simp only [writeFile, hl, hs, Option.map, Option.some.injEq] at h
            subst h
            cases q with
            | nil => rfl
            | cons m qrest =>
              by_cases hm : m = name
              · subst hm
                cases qrest with
                | nil => simp [readFile, lookup_replaceOrAdd_eq, hl]
                | cons q1 q2 =>
                  have hne : (q1 :: q2) ≠ (p1 :: p2) := by
                    intro hh
                    exact hq (by rw [hh])
                  simp only [readFile, lookup_replaceOrAdd_eq, hl]
                  exact writeFile_frame (p1 :: p2) sub c s (q1 :: q2) hs hne
              · cases qrest <;>
                  simp [readFile, lookup_replaceOrAdd_ne w name m _ hm]

/-- Placing copied entries under a target path changes no read outside the
target subtree. -/
theorem placeAt_frame : ∀ (tgt : List String) (w copied w1 : FsEntries)
    (q : List String), placeAt w tgt copied = some w1 →
    isUnderDir tgt q = false → readFile w1 q = readFile w q
  | [], _, _, _, q, _, hu => by simp [isUnderDir, List.isPrefixOf] at hu
  | name :: rest, w, copied, w1, q, h, hu => by
      cases hl : lookupEntry w name with
      | some e =>
        cases e with
        | file c0 => simp [placeAt, hl] at h
        | dir sub =>
          cases hs : placeAt sub rest copied with
          | none => simp [placeAt, hl, hs] at h
          | some s =>
            simp only [placeAt, hl, hs, Option.map, Option.some.injEq] at h
            subst h
            cases q with
            | nil => rfl
            | cons m qrest =>
              by_cases hm : m = name
              · subst hm
                have hu2 : isUnderDir rest qrest = false := by
                  simpa [isUnderDir, List.isPrefixOf_cons₂_self] using hu
                cases qrest with
                | nil => simp [readFile, lookup_replaceOrAdd_eq, hl]
                | cons q1 q2 =>
                  simp only [readFile, lookup_replaceOrAdd_eq, hl]
                  exact placeAt_frame rest sub copied s (q1 :: q2) hs hu2
              · cases qrest <;>
                  simp [readFile, lookup_replaceOrAdd_ne w name m _ hm]
      | none =>
        cases hs : placeAt .nil rest copied with
        | none => simp [placeAt, hl, hs] at h
        | some s =>
          simp only [placeAt, hl, hs, Option.map, Option.some.injEq] at h
          subst h
          cases q with
          | nil => rfl
          | cons m qrest =>
            by_cases hm : m = name
            · subst hm
              have hu2 : isUnderDir rest qrest = false := by
                simpa [isUnderDir, List.isPrefixOf_cons₂_self] using hu
              cases qrest with
              | nil => simp [readFile, lookup_replaceOrAdd_eq, hl]
              | cons q1 q2 =>
                simp only [readFile, lookup_replaceOrAdd_eq, hl]
                rw [placeAt_frame rest .nil copied s (q1 :: q2) hs hu2]
                cases q2 <;> simp [readFile, lookupEntry]
            · cases qrest <;>
                simp [readFile, lookup_replaceOrAdd_ne w name m _ hm]

/-- The filesystem effect of the selective copy changes no read outside the
target subtree. -/
theorem copy_fs_frame (world : FsEntries) (src tgt : List String)
    (w1 : FsEntries) (b : Bool) (q : List String)
    (h : copy_dir_contents_fs world src tgt = some (w1, b))
    (hu : isUnderDir tgt q = false) : readFile w1 q = readFile world q := by
  cases hg : getDirAt world src with
  | none => simp [copy_dir_contents_fs, hg] at h
  | some srcEntries =>
    by_cases hf : (copy_dir_contents srcEntries).2
    · cases hp : placeAt world tgt (copy_dir_contents srcEntries).1 with
      | none => simp [copy_dir_contents_fs, hg, hf, hp] at h
      | some wp =>
        simp only [copy_dir_contents_fs, hg, hf, hp, if_true, Option.map,
          Option.some.injEq, Prod.mk.injEq] at h
        obtain ⟨h1, -⟩ := h
        subst h1
        exact placeAt_frame tgt world _ wp q hp hu
    · simp only [copy_dir_contents_fs, hg, hf, if_false, Bool.false_eq_true,
        Option.some.injEq, Prod.mk.injEq] at h
      obtain ⟨h1, -⟩ := h
      subst h1
      rfl

/-- The manifest rewrite pass changes no read at any path other than the
shadow manifest path. -/
theorem edit_manifest_frame (env : SyncEnv) (world : FsEntries)
    (mdir mpath tpath : List String) (r : Except LanguageServerError Unit)
    (w1 : FsEntries) (q : List String)
    (h : edit_manifest_dependency_paths env world mdir mpath tpath = (r, w1))
    (hq : q ≠ tpath) : readFile w1 q = readFile world q := by
  cases hrw : rewriteManifestContent env world mdir mpath with
  | error e =>
    simp only [edit_manifest_dependency_paths, hrw, Prod.mk.injEq] at h
    obtain ⟨-, h1⟩ := h
    subst h1
    rfl
  | ok newText =>
    cases hwf : writeFile world tpath newText with
    | none =>
      simp only [edit_manifest_dependency_paths, hrw, hwf, Prod.mk.injEq] at h
      obtain ⟨-, h1⟩ := h
      subst h1
      rfl
    | some w2 =>
      simp only [edit_manifest_dependency_paths, hrw, hwf, Prod.mk.injEq] at h
      obtain ⟨-, h1⟩ := h
      subst h1
      exact writeFile_frame tpath world newText w2 q hwf hq

/-- A directory path is a prefix of any file path directly inside it. -/
theorem isUnderDir_append (d l : List String) : isUnderDir d (d ++ l) = true :=
  List.isPrefixOf_iff_prefix.mpr (List.prefix_append d l)

/-- C9: no operation of the subsystem mutates the real project files.  The
selective copy changes nothing outside its target subtree, the manifest
rewrite pass changes nothing except the shadow manifest path, and `resync`
changes nothing outside the registered shadow root: every path whose read
changes lies under the shadow tree. -/
theorem no_mutation_outside_shadow (env : SyncEnv) (world : FsEntries)
    (q : List String) :
    (∀ src tgt w1 b, copy_dir_contents_fs world src tgt = some (w1, b) →
        isUnderDir tgt q = false → readFile w1 q = readFile world q) ∧
    (∀ mdir mpath tpath r w1,
        edit_manifest_dependency_paths env world mdir mpath tpath = (r, w1) →
        q ≠ tpath → readFile w1 q = readFile world q) ∧
    (∀ (s : SyncWorkspace) tdir r w1, s.temp = some tdir →
        s.resync env world = (r, w1) → isUnderDir tdir q = false →
        readFile w1 q = readFile world q) := by
  refine ⟨fun src tgt w1 b h hu => copy_fs_frame world src tgt w1 b q h hu,
    fun mdir mpath tpath r w1 h hq =>
      edit_manifest_frame env world mdir mpath tpath r w1 q h hq, ?_⟩
  intro s tdir r w1 htemp h hu
  cases hcl : s.clone_manifest_dir_to_temp world with
  | error e =>
    simp only [SyncWorkspace.resync, hcl, Prod.mk.injEq] at h
    obtain ⟨-, h1⟩ := h
    subst h1
    rfl
  | ok wc =>
    have hwc : readFile wc q = readFile world q := by
      cases hm : s.manifest_dir with
      | error e =>
        simp [SyncWorkspace.clone_manifest_dir_to_temp, hm] at hcl
      | ok m =>
        cases ht : s.temp_dir with
        | error e =>
          simp [SyncWorkspace.clone_manifest_dir_to_temp, hm, ht] at hcl
        | ok t =>
          have htt : t = tdir := by
            unfold SyncWorkspace.temp_dir at ht
            rw [htemp] at ht
            exact (Except.ok.inj ht).symm
          subst htt
          cases hc : copy_dir_contents_fs world m t with
          | none =>
            simp [SyncWorkspace.clone_manifest_dir_to_temp, hm, ht, hc] at hcl
          | some pair =>
            obtain ⟨w2, b⟩ := pair
            simp only [SyncWorkspace.clone_manifest_dir_to_temp, hm, ht, hc,
              Except.ok.injEq] at hcl
            subst hcl
            exact copy_fs_frame world m t w2 b q hc hu
    rw [← hwc]
    cases hm : s.manifest_dir with
    | error e =>
      simp only [SyncWorkspace.resync, hcl, hm, Prod.mk.injEq] at h
      obtain ⟨-, h1⟩ := h
      subst h1
      rfl
    | ok mdir =>
      cases hmp : s.manifest_path with
      | none =>
        simp only [SyncWorkspace.resync, hcl, hm, hmp, Prod.mk.injEq] at h
        obtain ⟨-, h1⟩ := h
        subst h1
        rfl
      | some mpath =>
        cases htp : s.temp_manifest_path with
        | none =>
          simp only [SyncWorkspace.resync, hcl, hm, hmp, htp, Prod.mk.injEq] at h
          obtain ⟨-, h1⟩ := h
          subst h1
          rfl
        | some tpath =>
          simp only [SyncWorkspace.resync, hcl, hm, hmp, htp] at h
          have htpath : tpath = tdir ++ [MANIFEST_FILE_NAME] := by
            unfold SyncWorkspace.temp_manifest_path SyncWorkspace.temp_dir at htp
            rw [htemp] at htp
            simpa [Except.toOption] using htp.symm
          have hqt : q ≠ tpath := by
            intro hh
            rw [hh, htpath] at hu
            rw [isUnderDir_append] at hu
            exact Bool.noConfusion hu
          exact edit_manifest_frame env wc mdir mpath tpath r w1 q h hqt

/-- Witness for C9: a concrete `resync` run leaves the real manifest
readable unchanged. -/
theorem no_mutation_outside_shadow_witness :
    readFile (SyncWorkspace.resync envRun wsBoth worldRun).2
        ["home", "proj", "Forc.toml"]
      = readFile worldRun ["home", "proj", "Forc.toml"] :=
  (no_mutation_outside_shadow envRun worldRun
      ["home", "proj", "Forc.toml"]).2.2 wsBoth
    ["tmp", "SWAY_LSP_TEMP_DIR_x1", "proj"]
    (SyncWorkspace.resync envRun wsBoth worldRun).1
    (SyncWorkspace.resync envRun wsBoth worldRun).2
    rfl rfl (by decide)

end SwaySync
